import Mathlib

/-!
A shallow embedding of the compaction-metadata core of `slatedb-go`
(`slatedb/compactor_state.go`) together with a specification-level model of the
sorted-run iterator, and proofs of the behavioural claims about them.

Machine integers are modelled as `Fin` types (`uint32` as `Fin (2 ^ 32)`,
128-bit ULIDs as `Fin (2 ^ 128)`); Go maps are modelled as association lists;
Go panics (`common.AssertTrue`) are modelled as `Except` errors; the
string-encoded `SourceID.value` field is modelled as an explicit character
list with executable encoders and parsers.
-/

set_option linter.unusedVariables false

namespace SlateDB

/-- Machine `uint32` values. -/
abbrev UInt32V := Fin (2 ^ 32)

/-- `ulid.ULID` values: 128-bit identifiers. -/
abbrev ULIDV := Fin (2 ^ 128)

/-- Reduction of a `Nat` to a `uint32`, i.e. the Go conversion `uint32(v)`. -/
def toU32 (n : Nat) : UInt32V := ⟨n % 2 ^ 32, Nat.mod_lt _ (by norm_num)⟩

/-- Little-endian base-`b` digits of `n`, with explicit fuel so that the
definition reduces on concrete inputs.  With enough fuel this agrees with
`Nat.digits` (see `toDigitsLE_eq_digits`). -/
def toDigitsLE (b : Nat) : Nat → Nat → List Nat
  | 0, _ => []
  | _ + 1, 0 => []
  | fuel + 1, n + 1 => (n + 1) % b :: toDigitsLE b fuel ((n + 1) / b)

/-- The decimal digit characters. -/
def decChars : List Char := ['0', '1', '2', '3', '4', '5', '6', '7', '8', '9']

/-- The decimal character of a digit. -/
def decChar (d : Nat) : Char := decChars.getD d '0'

/-- The numeric value of a decimal character, as `strconv.Atoi` reads one. -/
def decVal (c : Char) : Option Nat :=
  if '0' ≤ c ∧ c ≤ '9' then some (c.toNat - '0'.toNat) else none

/-- The Crockford base-32 alphabet used by the ULID string encoding. -/
def b32Chars : List Char :=
  ['0', '1', '2', '3', '4', '5', '6', '7', '8', '9',
   'A', 'B', 'C', 'D', 'E', 'F', 'G', 'H', 'J', 'K', 'M', 'N',
   'P', 'Q', 'R', 'S', 'T', 'V', 'W', 'X', 'Y', 'Z']

/-- The Crockford base-32 character of a digit. -/
def b32Char (d : Nat) : Char := b32Chars.getD d '0'

/-- Position of a character in an alphabet (decoding table lookup). -/
def alphaIdx (c : Char) : Nat → List Char → Option Nat
  | _, [] => none
  | i, a :: rest => if c = a then some i else alphaIdx c (i + 1) rest

/-- The numeric value of a Crockford base-32 character. -/
def b32Val (c : Char) : Option Nat := alphaIdx c 0 b32Chars

/-- Generic big-endian digit-string parser: the accumulator loop shared by
`strconv.Atoi` and `ulid.Parse`. -/
def parseDigitsGo (dv : Char → Option Nat) (b : Nat) (acc : Nat) :
    List Char → Option Nat
  | [] => some acc
  | c :: rest =>
    match dv c with
    | none => none
    | some d => parseDigitsGo dv b (acc * b + d) rest

/-- Models Go `strconv.Itoa` on the non-negative values coming from a
`uint32`: the plain decimal rendering. -/
def itoa (n : Nat) : List Char :=
  if n = 0 then ['0'] else ((toDigitsLE 10 n n).reverse).map decChar

/-- Models Go `strconv.Atoi` on unsigned decimal strings.  The sign handling
and the 64-bit overflow error, which are never exercised on values built by
`newSourceIDSortedRun`, are elided. -/
def atoi (s : List Char) : Option Nat :=
  if s.isEmpty then none else parseDigitsGo decVal 10 0 s

/-- Models `ulid.ULID.String`: the 26-character, zero-padded Crockford
base-32 rendering of the 128-bit value, most significant digit first. -/
def ulidString (u : ULIDV) : List Char :=
  let ds := toDigitsLE 32 u.val u.val
  ((ds ++ List.replicate (26 - ds.length) 0).reverse).map b32Char

/-- Models `ulid.Parse` on canonical strings: exactly 26 characters of the
Crockford alphabet, the leading character restricted below the value `8`
(the parser's overflow check) so the result fits in 128 bits. -/
def ulidParse (s : List Char) : Option Nat :=
  match s with
  | [] => none
  | c :: _ =>
    if s.length = 26 ∧ (b32Val c).getD 32 < 8 then parseDigitsGo b32Val 32 0 s
    else none

/-! ### SourceID -/

inductive SourceIDType where
  | SortedRunID
  | SSTID
deriving DecidableEq

/-- `SourceID`: a tagged identifier whose payload is string-encoded, exactly
as in the source. -/
structure SourceID where
  typ : SourceIDType
  value : List Char
deriving DecidableEq

def newSourceIDSortedRun (id : UInt32V) : SourceID :=
  { typ := SourceIDType.SortedRunID, value := itoa id.val }

def newSourceIDSST (id : ULIDV) : SourceID :=
  { typ := SourceIDType.SSTID, value := ulidString id }

/-- `SourceID.sortedRunID`: re-parse the stored string; a parse failure
degrades to `none` (the Go code logs and returns `mo.None`). -/
def SourceID.sortedRunID (s : SourceID) : Option UInt32V :=
  if s.typ = SourceIDType.SortedRunID then (atoi s.value).map (fun v => toU32 v)
  else none

/-- `SourceID.sstID`: re-parse the stored string; a parse failure degrades to
`none`. -/
def SourceID.sstID (s : SourceID) : Option ULIDV :=
  if s.typ = SourceIDType.SSTID then
    (ulidParse s.value).bind (fun v => if h : v < 2 ^ 128 then some ⟨v, h⟩ else none)
  else none

/-- The source ids actually constructible through the package's two
constructors. -/
def SourceID.WF (s : SourceID) : Prop :=
  (∃ id : UInt32V, s = newSourceIDSortedRun id) ∨ ∃ id : ULIDV, s = newSourceIDSST id

/-! ### Compaction and state -/

inductive CompactionStatus where
  | Submitted
  | InProgress
deriving DecidableEq

structure Compaction where
  status : CompactionStatus
  sources : List SourceID
  destination : UInt32V
deriving DecidableEq

def newCompaction (sources : List SourceID) (destination : UInt32V) : Compaction :=
  { status := CompactionStatus.Submitted, sources := sources, destination := destination }

/-- Handle to one immutable table.  The full `SSTableHandle` is defined
outside the given sources; the compactor only reads its compacted id (it
asserts `id.typ == Compacted` and `compactedID().IsPresent()` on every entry
it touches), so the model carries that id directly and those two assertions
hold by construction. -/
structure SSTableHandle where
  id : ULIDV
deriving DecidableEq

structure SortedRun where
  id : UInt32V
  files : List SSTableHandle
deriving DecidableEq

/-- `CoreDBState` as used by the compactor: the five fields of the spec's
data model.  `clone` is value copying, implicit in the functional model. -/
structure CoreDBState where
  l0 : List SSTableHandle
  l0LastCompacted : Option ULIDV
  compacted : List SortedRun
  lastCompactedWalSSTID : Nat
  nextWalSstID : Nat
deriving DecidableEq

/-- `CompactorState`; the Go `map[uint32]Compaction` is modelled as an
association list looked up by key. -/
structure CompactorState where
  dbState : CoreDBState
  compactions : List (UInt32V × Compaction)
deriving DecidableEq

def newCompactorState (dbState : CoreDBState) : CompactorState :=
  { dbState := dbState, compactions := [] }

/-- Go map indexing `m[k]`. -/
def mapLookup (m : List (UInt32V × Compaction)) (k : UInt32V) : Option Compaction :=
  match m with
  | [] => none
  | kv :: rest => if kv.1 = k then some kv.2 else mapLookup rest k

/-- Go map `delete(m, k)`. -/
def mapErase (m : List (UInt32V × Compaction)) (k : UInt32V) :
    List (UInt32V × Compaction) :=
  m.filter (fun kv => decide (¬ kv.1 = k))

/-- The single caller-facing sentinel error (`common.ErrInvalidCompaction`). -/
inductive DBError where
  | invalidCompaction
deriving DecidableEq

/-- `oneOfTheSourceSRMatchesDestination`: note the Go code ignores the
`strconv.Atoi` error here, so a failed parse contributes the value `0`. -/
def oneOfTheSourceSRMatchesDestination (compaction : Compaction) : Bool :=
  compaction.sources.any (fun src =>
    decide (src.typ = SourceIDType.SortedRunID) &&
      decide (toU32 ((atoi src.value).getD 0) = compaction.destination))

/-- `CompactorState.submitCompaction`. -/
def submitCompaction (c : CompactorState) (compaction : Compaction) :
    Except DBError CompactorState :=
  if (mapLookup c.compactions compaction.destination).isSome then
    Except.error DBError.invalidCompaction
  else
    match c.dbState.compacted.find? (fun sr => decide (sr.id = compaction.destination)) with
    | some _ =>
      if oneOfTheSourceSRMatchesDestination compaction then
        Except.ok { c with compactions := (compaction.destination, compaction) :: c.compactions }
      else Except.error DBError.invalidCompaction
    | none =>
      Except.ok { c with compactions := (compaction.destination, compaction) :: c.compactions }

/-- The loop of `refreshDBState` over `writerState.l0`: copy entries until
one carries the current `l0LastCompacted` id, and stop before copying it. -/
def mergeWriterL0 (lastCompactedL0 : Option ULIDV) : List SSTableHandle → List SSTableHandle
  | [] => []
  | sst :: rest =>
    if lastCompactedL0 = some sst.id then []
    else sst :: mergeWriterL0 lastCompactedL0 rest

/-- `CompactorState.refreshDBState`. -/
def refreshDBState (c : CompactorState) (writerState : CoreDBState) : CompactorState :=
  { c with
      dbState :=
        { c.dbState with
            l0 := mergeWriterL0 c.dbState.l0LastCompacted writerState.l0
            lastCompactedWalSSTID := writerState.lastCompactedWalSSTID
            nextWalSstID := writerState.nextWalSstID } }

/-- The two `common.AssertTrue` conditions of `finishCompaction` that depend
on the dynamic state; an assertion failure is a Go panic, modelled as an
error result. -/
inductive CompactorPanic where
  | compactedOrder
  | emptySources
deriving DecidableEq

/-- The rebuild loop over `dbState.compacted` in `finishCompaction`: emit the
output run in front of the first entry whose id is ≤ the output id, drop
entries whose id is consumed, and append the output run if it was never
emitted. -/
def buildNewCompacted (out : SortedRun) (consumedSRs : List UInt32V) :
    List SortedRun → Bool → List SortedRun
  | [], inserted => if inserted then [] else [out]
  | sr :: rest, inserted =>
    let doInsert := !inserted && decide (sr.id ≤ out.id)
    (if doInsert then [out] else []) ++
      (if sr.id ∈ consumedSRs then [] else [sr]) ++
        buildNewCompacted out consumedSRs rest (inserted || doInsert)

/-- The checking loop of `assertCompactedSRsInIDOrder`, threading the
previous id (initially `math.MaxUint32`). -/
def compactedSRsInIDOrderGo (lastSortedRunID : UInt32V) : List SortedRun → Bool
  | [] => true
  | sr :: rest => decide (sr.id < lastSortedRunID) && compactedSRsInIDOrderGo sr.id rest

/-- `assertCompactedSRsInIDOrder`, as a boolean check. -/
def compactedSRsInIDOrder (compacted : List SortedRun) : Bool :=
  compactedSRsInIDOrderGo (toU32 (2 ^ 32 - 1)) compacted

/-- The consumed sorted-run ids of a compaction: ids of sources that are not
file ids but parse as sorted-run ids, plus the destination itself (the Go
code stores them in a set; only membership is ever used). -/
def compactionSourceSRs (compaction : Compaction) : List UInt32V :=
  compaction.destination ::
    compaction.sources.filterMap (fun src =>
      if (src.sstID).isSome then none else src.sortedRunID)

/-- The consumed file ids of a compaction. -/
def compactionSourceL0s (compaction : Compaction) : List ULIDV :=
  compaction.sources.filterMap (fun src => src.sstID)

/-- `CompactorState.finishCompaction`. -/
def finishCompaction (c : CompactorState) (outputSR : SortedRun) :
    Except CompactorPanic CompactorState :=
  match mapLookup c.compactions outputSR.id with
  | none => Except.ok c
  | some compaction =>
    let compactionL0s := compactionSourceL0s compaction
    let compactionSRs := compactionSourceSRs compaction
    let newL0 := c.dbState.l0.filter (fun sst => decide (¬ sst.id ∈ compactionL0s))
    let newCompacted := buildNewCompacted outputSR compactionSRs c.dbState.compacted false
    if compactedSRsInIDOrder newCompacted then
      match compaction.sources with
      | [] => Except.error CompactorPanic.emptySources
      | firstSource :: _ =>
        let newWatermark :=
          match firstSource.sstID with
          | some compactedL0 => some compactedL0
          | none => c.dbState.l0LastCompacted
        Except.ok
          { dbState :=
              { c.dbState with
                  l0 := newL0
                  compacted := newCompacted
                  l0LastCompacted := newWatermark }
            compactions := mapErase c.compactions outputSR.id }
    else Except.error CompactorPanic.compactedOrder

/-! ### Call sequences over the public interface -/

/-- One call of the compactor's public interface. -/
inductive CompactorOp where
  | submit (compaction : Compaction)
  | refresh (writerState : CoreDBState)
  | finish (outputSR : SortedRun)

/-- One successful call: `none` when the call errors (or panics). -/
def applyOp (c : CompactorState) : CompactorOp → Option CompactorState
  | CompactorOp.submit compaction => (submitCompaction c compaction).toOption
  | CompactorOp.refresh writerState => some (refreshDBState c writerState)
  | CompactorOp.finish outputSR => (finishCompaction c outputSR).toOption

/-- A sequence of successful calls. -/
def runOps (c : CompactorState) : List CompactorOp → Option CompactorState
  | [] => some c
  | op :: ops => (applyOp c op).bind (fun c1 => runOps c1 ops)

/-- The standing ordering invariant on `compacted`: strictly decreasing by
id, no duplicate ids. -/
def compactedInvariant (l : List SortedRun) : Prop :=
  l.Pairwise (fun a b => b.id < a.id) ∧ (l.map (fun sr => sr.id)).Nodup

/-! ### Sorted-run iterator (specification model)

Modelled from the spec: the `SortedRunIterator` implementation is not among
the provided sources (only its tests are).  An iterator state is the list of
per-file key/value suffixes still to be produced, newest position first;
`tableContents` abstracts the table-store collaborator that yields one
file's ordered entries.  Prefetch tuning and object-store I/O are external
and elided, so `next` yields only the optional pair (the error component of
the Go `Next` is always `nil` in this model, as the spec's termination
contract requires). -/

variable {κ ν : Type}

/-- Modelled from the spec: the state of a full-scan `SortedRunIterator`
over a run, given the table-store contents of each file. -/
def srIterInit (tableContents : SSTableHandle → List (κ × ν)) (run : SortedRun) :
    List (List (κ × ν)) :=
  run.files.map tableContents

/-- Modelled from the spec: one `Next` call — exhaust file 0 entirely, then
file 1, and so on; past the end, yield an explicit `none`. -/
def srNext : List (List (κ × ν)) → Option (κ × ν) × List (List (κ × ν))
  | [] => (none, [])
  | [] :: rest => srNext rest
  | (kv :: entries) :: rest => (some kv, entries :: rest)

/-- The iterator state after `n` further `Next` calls. -/
def srIterateN : Nat → List (List (κ × ν)) → List (List (κ × ν))
  | 0, fs => fs
  | n + 1, fs => srIterateN n (srNext fs).2

/-- Fuelled driver loop: call `Next` until it yields `none`, collecting the
produced pairs. -/
def srCollect : Nat → List (List (κ × ν)) → List (κ × ν)
  | 0, _ => []
  | fuel + 1, fs =>
    match srNext fs with
    | (none, _) => []
    | (some kv, fs') => kv :: srCollect fuel fs'

/-- Enough fuel to drain an iterator state. -/
def srMeasure (fs : List (List (κ × ν))) : Nat := fs.length + fs.flatten.length

/-- A full scan of a sorted run. -/
def srFullScan (tableContents : SSTableHandle → List (κ × ν)) (run : SortedRun) :
    List (κ × ν) :=
  srCollect (srMeasure (srIterInit tableContents run)) (srIterInit tableContents run)

/-- The `compacted` rebuild as claim C2 states it: remove every run whose id
is consumed, and insert the output run at the first position where an
existing run's id is ≤ the output id, appending at the end when no such
position exists. -/
def claimRebuildCompacted (old : List SortedRun) (out : SortedRun)
    (consumed : List UInt32V) : List SortedRun :=
  ((old.takeWhile (fun sr => decide (out.id < sr.id))).filter
      (fun sr => decide (¬ sr.id ∈ consumed))) ++
    out :: ((old.dropWhile (fun sr => decide (out.id < sr.id))).filter
      (fun sr => decide (¬ sr.id ∈ consumed)))

/-! ### Digit-encoding lemmas -/

theorem toDigitsLE_eq_digits (b : Nat) (hb : 1 < b) :
    ∀ fuel n, n ≤ fuel → toDigitsLE b fuel n = Nat.digits b n := by
  intro fuel
  induction fuel with
  | zero =>
    intro n hn
    interval_cases n
    simp [toDigitsLE]
  | succ fuel ih =>
    intro n hn
    match n with
    | 0 => simp [toDigitsLE]
    | m + 1 =>
      rw [show toDigitsLE b (fuel + 1) (m + 1) = (m + 1) % b :: toDigitsLE b fuel ((m + 1) / b)
            from rfl,
        Nat.digits_def' hb (Nat.succ_pos m)]
      congr 1
      exact ih _ (by have := Nat.div_lt_self (show 0 < m + 1 by omega) hb; omega)

theorem decVal_decChar (d : Nat) (hd : d < 10) : decVal (decChar d) = some d := by
  interval_cases d <;> decide

theorem b32Val_b32Char (d : Nat) (hd : d < 32) : b32Val (b32Char d) = some d := by
  interval_cases d <;> decide

theorem parseDigitsGo_map (dv : Char → Option Nat) (enc : Nat → Char) (b : Nat) :
    ∀ ds : List Nat, (∀ d ∈ ds, dv (enc d) = some d) →
      ∀ acc, parseDigitsGo dv b acc (ds.map enc) =
        some (Nat.ofDigits b ds.reverse + acc * b ^ ds.length) := by
  intro ds
  induction ds with
  | nil => intro _ acc; simp [parseDigitsGo, Nat.ofDigits]
  | cons d rest ih =>
    intro h acc
    have hd : dv (enc d) = some d := h d (List.mem_cons_self d rest)
    have hrest : ∀ x ∈ rest, dv (enc x) = some x := fun x hx => h x (List.mem_cons_of_mem d hx)
    simp only [List.map_cons, parseDigitsGo, hd]
    rw [ih hrest (acc * b + d)]
    congr 1
    rw [List.reverse_cons, Nat.ofDigits_append]
    simp [Nat.ofDigits_cons, Nat.ofDigits_nil, pow_succ]
    ring

theorem atoi_itoa (n : Nat) : atoi (itoa n) = some n := by
  by_cases hn : n = 0
  · subst hn; decide
  · have hds : toDigitsLE 10 n n = Nat.digits 10 n :=
      toDigitsLE_eq_digits 10 (by norm_num) n n le_rfl
    have hne : Nat.digits 10 n ≠ [] := by
      simpa [Nat.digits_eq_nil_iff_eq_zero] using hn
    have hvalid : ∀ d ∈ (Nat.digits 10 n).reverse, decVal (decChar d) = some d := by
      intro d hd
      exact decVal_decChar d (Nat.digits_lt_base (by norm_num) (List.mem_reverse.mp hd))
    rw [itoa, if_neg hn, hds, atoi]
    rw [if_neg (by simp [List.isEmpty_eq_true, hne])]
    rw [parseDigitsGo_map decVal decChar 10 _ hvalid 0]
    simp [Nat.ofDigits_digits]

theorem ofDigits_replicate_zero (b : Nat) : ∀ k, Nat.ofDigits b (List.replicate k 0) = 0 := by
  intro k
  induction k with
  | zero => simp [Nat.ofDigits]
  | succ k ih => simp [List.replicate_succ, Nat.ofDigits_cons, ih]

theorem getLast?_replicate_zero :
    ∀ k, 0 < k → (List.replicate k (0 : Nat)).getLast? = some 0 := by
  intro k
  induction k with
  | zero => omega
  | succ k ih =>
    intro _
    cases k with
    | zero => simp
    | succ m =>
      rw [List.replicate_succ, List.replicate_succ, List.getLast?_cons_cons,
        ← List.replicate_succ]
      exact ih (by omega)

theorem ulidParse_ulidString (u : ULIDV) : ulidParse (ulidString u) = some u.val := by
  have hds : toDigitsLE 32 u.val u.val = Nat.digits 32 u.val :=
    toDigitsLE_eq_digits 32 (by norm_num) u.val u.val le_rfl
  have hlt : u.val < 2 ^ 128 := u.isLt
  have hlen : (Nat.digits 32 u.val).length ≤ 26 := by
    by_cases h0 : u.val = 0
    · rw [h0]; simp
    · rw [Nat.digits_len 32 u.val (by norm_num) h0]
      have hlog : Nat.log 32 u.val < 26 :=
        Nat.log_lt_of_lt_pow h0 (lt_of_lt_of_le hlt (by norm_num))
      omega
  set ds := Nat.digits 32 u.val with hds_def
  set pad := ds ++ List.replicate (26 - ds.length) 0 with hpad_def
  have hpadlen : pad.length = 26 := by
    rw [hpad_def, List.length_append, List.length_replicate]; omega
  have hpadmem : ∀ d ∈ pad, d < 32 := by
    intro d hd
    rcases List.mem_append.mp hd with h | h
    · exact Nat.digits_lt_base (by norm_num) h
    · have := List.eq_of_mem_replicate h; omega
  have hofpad : Nat.ofDigits 32 pad = u.val := by
    rw [hpad_def, Nat.ofDigits_append, ofDigits_replicate_zero, Nat.ofDigits_digits]
    ring
  have hstring : ulidString u = (pad.reverse).map b32Char := by
    rw [ulidString]
    simp only [hds]
  obtain ⟨b, B', hB⟩ : ∃ b B', pad.reverse = b :: B' := by
    cases hrev : pad.reverse with
    | nil =>
      have : pad = [] := by simpa using congrArg List.reverse hrev
      rw [this] at hpadlen; simp at hpadlen
    | cons b B' => exact ⟨b, B', rfl⟩
  have hpad_decomp : pad = B'.reverse ++ [b] := by
    have := congrArg List.reverse hB
    simpa using this
  have hB'len : B'.length = 25 := by
    have := congrArg List.length hB
    simp at this
    omega
  have hbmem : b ∈ pad := by
    rw [hpad_decomp]; simp
  have hblt8 : b < 8 := by
    have hsplit : Nat.ofDigits 32 pad =
        Nat.ofDigits 32 B'.reverse + 32 ^ B'.reverse.length * b := by
      rw [hpad_decomp, Nat.ofDigits_append, Nat.ofDigits_singleton]
    have hlow : 32 ^ 25 * b ≤ u.val := by
      rw [← hofpad, hsplit, List.length_reverse, hB'len]; omega
    have hup : 32 ^ 25 * b < 32 ^ 25 * 8 :=
      lt_of_le_of_lt hlow (lt_of_lt_of_le hlt (by norm_num))
    exact Nat.lt_of_mul_lt_mul_left hup
  have hvalid : ∀ d ∈ pad.reverse, b32Val (b32Char d) = some d := fun d hd =>
    b32Val_b32Char d (hpadmem d (List.mem_reverse.mp hd))
  rw [hstring, hB, List.map_cons, ulidParse]
  rw [if_pos ?cond]
  case cond =>
    constructor
    · have : (b :: B').length = 26 := by simp [← hB, hpadlen]
      simpa using this
    · rw [b32Val_b32Char b (hpadmem b hbmem)]
      simpa using hblt8
  rw [← List.map_cons, ← hB, parseDigitsGo_map b32Val b32Char 32 _ hvalid 0]
  simp [hofpad]

theorem sstID_newSourceIDSST (u : ULIDV) : (newSourceIDSST u).sstID = some u := by
  have h := ulidParse_ulidString u
  simp only [SourceID.sstID, newSourceIDSST, if_pos] at h ⊢
  rw [h]
  simp [u.isLt]

theorem sortedRunID_newSourceIDSortedRun (id : UInt32V) :
    (newSourceIDSortedRun id).sortedRunID = some id := by
  have h := atoi_itoa id.val
  simp only [SourceID.sortedRunID, newSourceIDSortedRun, if_pos]
  rw [h]
  simp only [Option.map_some']
  congr 1
  apply Fin.ext
  exact Nat.mod_eq_of_lt id.isLt

theorem sstID_newSourceIDSortedRun (id : UInt32V) :
    (newSourceIDSortedRun id).sstID = none := rfl

theorem sortedRunID_newSourceIDSST (u : ULIDV) :
    (newSourceIDSST u).sortedRunID = none := rfl

theorem toU32_val (id : UInt32V) : toU32 id.val = id :=
  Fin.ext (Nat.mod_eq_of_lt id.isLt)

/-- Claim C9: the constructor/accessor pairs of `SourceID` round-trip exactly
despite the string encoding — `newSourceIDSortedRun id` yields `some id` from
`sortedRunID` and `none` from `sstID`, and `newSourceIDSST u` yields `some u`
from `sstID` and `none` from `sortedRunID`. -/
theorem claim9_sourceID_roundtrip :
    (∀ id : UInt32V, (newSourceIDSortedRun id).sortedRunID = some id ∧
        (newSourceIDSortedRun id).sstID = none) ∧
      ∀ u : ULIDV, (newSourceIDSST u).sstID = some u ∧
        (newSourceIDSST u).sortedRunID = none :=
  ⟨fun id => ⟨sortedRunID_newSourceIDSortedRun id, sstID_newSourceIDSortedRun id⟩,
    fun u => ⟨sstID_newSourceIDSST u, sortedRunID_newSourceIDSST u⟩⟩

/-! ### finishCompaction on an unknown destination (C5) -/

/-- Claim C5: `finishCompaction` with an id that is not a key of
`compactions` is a benign no-op: no error, and the state — both `dbState`
and `compactions` — is returned exactly unchanged. -/
theorem claim5_finish_unknown_noop (c : CompactorState) (outputSR : SortedRun)
    (h : mapLookup c.compactions outputSR.id = none) :
    finishCompaction c outputSR = Except.ok c := by
  unfold finishCompaction
  rw [h]

theorem claim5_witness :
    mapLookup (newCompactorState ⟨[], none, [], 0, 0⟩).compactions
        (SortedRun.mk 1 []).id = none ∧
      finishCompaction (newCompactorState ⟨[], none, [], 0, 0⟩) (SortedRun.mk 1 []) =
        Except.ok (newCompactorState ⟨[], none, [], 0, 0⟩) :=
  ⟨rfl, claim5_finish_unknown_noop _ _ rfl⟩

/-! ### refreshDBState (C4) -/

theorem mergeWriterL0_eq_takeWhile (wm : Option ULIDV) (l : List SSTableHandle) :
    mergeWriterL0 wm l = l.takeWhile (fun h1 => decide (¬ wm = some h1.id)) := by
  induction l with
  | nil => rfl
  | cons sst rest ih =>
    by_cases h : wm = some sst.id
    · simp [mergeWriterL0, h, List.takeWhile_cons]
    · simp [mergeWriterL0, h, List.takeWhile_cons, ih]

theorem takeWhile_longest {α : Type} (p : α → Bool) :
    ∀ (pre t l : List α), pre ++ t = l → (∀ x ∈ pre, p x = true) →
      pre.length ≤ (l.takeWhile p).length := by
  intro pre
  induction pre with
  | nil => simp
  | cons a pre' ih =>
    intro t l hl hp
    subst hl
    rw [List.cons_append, List.takeWhile_cons, if_pos (hp a (List.mem_cons_self a pre'))]
    simp only [List.length_cons]
    exact Nat.succ_le_succ (ih t _ rfl fun x hx => hp x (List.mem_cons_of_mem a hx))

/-- Claim C4: `refreshDBState` replaces `dbState` by a clone whose `l0` is
exactly the longest initial segment of `writerState.l0` (newest first)
containing no entry whose id equals the pre-call `l0LastCompacted`
watermark — the whole of `writerState.l0` when the watermark is absent or
never matched — whose WAL counters are copied from `writerState`, and whose
`compacted` list and `l0LastCompacted` watermark are unchanged. -/
theorem claim4_refreshDBState (c : CompactorState) (writerState : CoreDBState) :
    (refreshDBState c writerState).dbState.l0 =
        writerState.l0.takeWhile
          (fun h1 => decide (¬ c.dbState.l0LastCompacted = some h1.id)) ∧
      (∀ x ∈ (refreshDBState c writerState).dbState.l0,
        ¬ c.dbState.l0LastCompacted = some x.id) ∧
      (∃ t, (refreshDBState c writerState).dbState.l0 ++ t = writerState.l0) ∧
      (∀ pre t, pre ++ t = writerState.l0 →
        (∀ x ∈ pre, ¬ c.dbState.l0LastCompacted = some x.id) →
        pre.length ≤ (refreshDBState c writerState).dbState.l0.length) ∧
      (refreshDBState c writerState).dbState.lastCompactedWalSSTID =
        writerState.lastCompactedWalSSTID ∧
      (refreshDBState c writerState).dbState.nextWalSstID = writerState.nextWalSstID ∧
      (refreshDBState c writerState).dbState.compacted = c.dbState.compacted ∧
      (refreshDBState c writerState).dbState.l0LastCompacted = c.dbState.l0LastCompacted := by
  have hl0 : (refreshDBState c writerState).dbState.l0 =
      writerState.l0.takeWhile
        (fun h1 => decide (¬ c.dbState.l0LastCompacted = some h1.id)) :=
    mergeWriterL0_eq_takeWhile _ _
  refine ⟨hl0, ?_, ?_, ?_, rfl, rfl, rfl, rfl⟩
  · intro x hx
    rw [hl0] at hx
    have h2 := List.mem_takeWhile_imp hx
    exact of_decide_eq_true h2
  · refine ⟨writerState.l0.dropWhile
        (fun h1 => decide (¬ c.dbState.l0LastCompacted = some h1.id)), ?_⟩
    rw [hl0]
    exact List.takeWhile_append_dropWhile _ _
  · intro pre t hpre hp
    rw [hl0]
    exact takeWhile_longest _ pre t _ hpre fun x hx => decide_eq_true (hp x hx)

/-! ### Reachability of the empty-sources assertion (C10) -/

/-- Claim C10: `finishCompaction` asserts that the looked-up compaction has
at least one source, yet `submitCompaction` performs no check on the sources
list, so a compaction submitted with an empty sources list and a fresh
destination makes the fatal assertion branch reachable through the public
interface. -/
theorem claim10_emptySources_reachable :
    submitCompaction (newCompactorState ⟨[], none, [], 0, 0⟩) (newCompaction [] 1) =
        Except.ok ⟨⟨[], none, [], 0, 0⟩, [(1, newCompaction [] 1)]⟩ ∧
      finishCompaction ⟨⟨[], none, [], 0, 0⟩, [(1, newCompaction [] 1)]⟩
          (SortedRun.mk 1 []) =
        Except.error CompactorPanic.emptySources :=
  ⟨rfl, rfl⟩

/-! ### submitCompaction (C3) -/

theorem mapLookup_cons_self (k : UInt32V) (v : Compaction)
    (m : List (UInt32V × Compaction)) : mapLookup ((k, v) :: m) k = some v := by
  simp [mapLookup]

theorem mapLookup_cons_ne (k k' : UInt32V) (v : Compaction)
    (m : List (UInt32V × Compaction)) (h : k ≠ k') :
    mapLookup ((k, v) :: m) k' = mapLookup m k' := by
  simp [mapLookup, h]

theorem srcMatch_iff (dest : UInt32V) (src : SourceID) (hWF : src.WF) :
    ((decide (src.typ = SourceIDType.SortedRunID) &&
        decide (toU32 ((atoi src.value).getD 0) = dest)) = true) ↔
      src.sortedRunID = some dest := by
  rcases hWF with ⟨id, rfl⟩ | ⟨u, rfl⟩
  · have hval : (atoi (newSourceIDSortedRun id).value).getD 0 = id.val := by
      rw [show (newSourceIDSortedRun id).value = itoa id.val from rfl, atoi_itoa]
      rfl
    rw [sortedRunID_newSourceIDSortedRun]
    constructor
    · intro h
      simp only [Bool.and_eq_true, decide_eq_true_eq, hval, toU32_val] at h
      exact congrArg some h.2
    · intro h
      have hid : id = dest := Option.some.inj h
      subst hid
      simp only [Bool.and_eq_true, decide_eq_true_eq]
      refine ⟨rfl, ?_⟩
      show toU32 ((atoi (itoa id.val)).getD 0) = id
      rw [atoi_itoa]
      exact toU32_val id
  · rw [sortedRunID_newSourceIDSST]
    constructor
    · intro h
      simp only [Bool.and_eq_true, decide_eq_true_eq] at h
      exact absurd h.1 (by simp [newSourceIDSST])
    · intro h
      exact absurd h (by simp)

theorem oneOf_iff (compaction : Compaction)
    (hWF : ∀ src ∈ compaction.sources, src.WF) :
    oneOfTheSourceSRMatchesDestination compaction = true ↔
      ∃ src ∈ compaction.sources, src.sortedRunID = some compaction.destination := by
  rw [oneOfTheSourceSRMatchesDestination, List.any_eq_true]
  constructor
  · rintro ⟨src, hmem, hsrc⟩
    exact ⟨src, hmem, (srcMatch_iff _ src (hWF src hmem)).mp hsrc⟩
  · rintro ⟨src, hmem, hsrc⟩
    exact ⟨src, hmem, (srcMatch_iff _ src (hWF src hmem)).mpr hsrc⟩

/-- Claim C3: `submitCompaction` returns the invalid-compaction error exactly
when the destination key is already registered, or the `compacted` list holds
a run with the destination id that no sorted-run-type source of the
compaction names; on success the compaction is inserted under its
destination key, other keys are untouched, and `dbState` is unchanged. -/
theorem claim3_submitCompaction (c : CompactorState) (compaction : Compaction)
    (hWF : ∀ src ∈ compaction.sources, src.WF) :
    (submitCompaction c compaction = Except.error DBError.invalidCompaction ↔
        (mapLookup c.compactions compaction.destination).isSome = true ∨
          ((∃ sr ∈ c.dbState.compacted, sr.id = compaction.destination) ∧
            ¬ ∃ src ∈ compaction.sources,
                src.sortedRunID = some compaction.destination)) ∧
      ∀ c', submitCompaction c compaction = Except.ok c' →
        c'.dbState = c.dbState ∧
          mapLookup c'.compactions compaction.destination = some compaction ∧
          ∀ k, k ≠ compaction.destination →
            mapLookup c'.compactions k = mapLookup c.compactions k := by
  unfold submitCompaction
  by_cases hdup : (mapLookup c.compactions compaction.destination).isSome = true
  · rw [if_pos hdup]
    constructor
    · simp [hdup]
    · intro c' hc'
      exact absurd hc' (by simp)
  · rw [if_neg hdup]
    have hinsert : ∀ c', ({ c with compactions :=
          (compaction.destination, compaction) :: c.compactions } : CompactorState) = c' →
        c'.dbState = c.dbState ∧
          mapLookup c'.compactions compaction.destination = some compaction ∧
          ∀ k, k ≠ compaction.destination →
            mapLookup c'.compactions k = mapLookup c.compactions k := by
      rintro c' rfl
      refine ⟨rfl, mapLookup_cons_self _ _ _, ?_⟩
      intro k hk
      exact mapLookup_cons_ne _ _ _ _ fun h => hk h.symm
    cases hfind : c.dbState.compacted.find?
        (fun sr => decide (sr.id = compaction.destination)) with
    | none =>
      have hnone : ¬ ∃ sr ∈ c.dbState.compacted, sr.id = compaction.destination := by
        rw [List.find?_eq_none] at hfind
        rintro ⟨sr, hmem, hid⟩
        exact absurd (decide_eq_true hid) (hfind sr hmem)
      constructor
      · constructor
        · intro h
          exact absurd h (by simp)
        · rintro (h | ⟨hex, _⟩)
          · exact absurd h hdup
          · exact absurd hex hnone
      · intro c' hc'
        exact hinsert c' (Except.ok.inj hc')
    | some sr0 =>
      have hp := List.find?_some hfind
      have hex : ∃ sr ∈ c.dbState.compacted, sr.id = compaction.destination :=
        ⟨sr0, List.mem_of_find?_eq_some hfind, of_decide_eq_true hp⟩
      by_cases hmatch : oneOfTheSourceSRMatchesDestination compaction = true
      · rw [if_pos hmatch]
        constructor
        · constructor
          · intro h
            exact absurd h (by simp)
          · rintro (h | ⟨_, hno⟩)
            · exact absurd h hdup
            · exact absurd ((oneOf_iff compaction hWF).mp hmatch) hno
        · intro c' hc'
          exact hinsert c' (Except.ok.inj hc')
      · rw [if_neg hmatch]
        constructor
        · constructor
          · intro _
            exact Or.inr ⟨hex, fun hcontra =>
              hmatch ((oneOf_iff compaction hWF).mpr hcontra)⟩
          · intro _
            rfl
        · intro c' hc'
          exact absurd hc' (by simp)

theorem claim3_witness :
    (submitCompaction (newCompactorState ⟨[], none, [], 0, 0⟩) (newCompaction [] 2) =
        Except.error DBError.invalidCompaction ↔
      (mapLookup (newCompactorState ⟨[], none, [], 0, 0⟩).compactions
          (newCompaction [] 2).destination).isSome = true ∨
        ((∃ sr ∈ (newCompactorState ⟨[], none, [], 0, 0⟩).dbState.compacted,
            sr.id = (newCompaction [] 2).destination) ∧
          ¬ ∃ src ∈ (newCompaction [] 2).sources,
              src.sortedRunID = some (newCompaction [] 2).destination)) :=
  (claim3_submitCompaction _ _ fun src hs => absurd hs (List.not_mem_nil src)).1

/-! ### finishCompaction lemmas -/

theorem finish_not_found (c : CompactorState) (outputSR : SortedRun)
    (h : mapLookup c.compactions outputSR.id = none) :
    finishCompaction c outputSR = Except.ok c := by
  unfold finishCompaction
  rw [h]

theorem orderGo_sound :
    ∀ (l : List SortedRun) (last : UInt32V), compactedSRsInIDOrderGo last l = true →
      List.Pairwise (fun a b => b.id < a.id) l ∧ ∀ x ∈ l, x.id < last := by
  intro l
  induction l with
  | nil =>
    intro last _
    exact ⟨List.Pairwise.nil, by simp⟩
  | cons sr rest ih =>
    intro last h
    simp only [compactedSRsInIDOrderGo, Bool.and_eq_true, decide_eq_true_eq] at h
    obtain ⟨h1, h2⟩ := h
    obtain ⟨hpw, hlt⟩ := ih sr.id h2
    refine ⟨List.Pairwise.cons (fun b hb => hlt b hb) hpw, ?_⟩
    intro x hx
    rcases List.mem_cons.mp hx with rfl | hx
    · exact h1
    · exact lt_trans (hlt x hx) h1

theorem order_invariant (l : List SortedRun) (h : compactedSRsInIDOrder l = true) :
    compactedInvariant l := by
  obtain ⟨hpw, -⟩ := orderGo_sound l _ h
  exact ⟨hpw, List.pairwise_map.mpr (hpw.imp fun h2 => ne_of_gt h2)⟩

/-- What a successful `finishCompaction` on a registered compaction with a
non-empty sources list does: the order assertion passed, and the new state is
the committed clone with the compaction entry erased. -/
theorem finishCompaction_ok_spec (c : CompactorState) (outputSR : SortedRun)
    (compaction : Compaction) (firstSource : SourceID) (rest : List SourceID)
    (c' : CompactorState)
    (hlk : mapLookup c.compactions outputSR.id = some compaction)
    (hsrc : compaction.sources = firstSource :: rest)
    (hok : finishCompaction c outputSR = Except.ok c') :
    compactedSRsInIDOrder (buildNewCompacted outputSR
        (compactionSourceSRs compaction) c.dbState.compacted false) = true ∧
      c'.dbState.l0 = c.dbState.l0.filter
        (fun sst => decide (¬ sst.id ∈ compactionSourceL0s compaction)) ∧
      c'.dbState.compacted = buildNewCompacted outputSR
        (compactionSourceSRs compaction) c.dbState.compacted false ∧
      c'.dbState.l0LastCompacted = (match firstSource.sstID with
        | some u => some u
        | none => c.dbState.l0LastCompacted) ∧
      c'.dbState.lastCompactedWalSSTID = c.dbState.lastCompactedWalSSTID ∧
      c'.dbState.nextWalSstID = c.dbState.nextWalSstID ∧
      c'.compactions = mapErase c.compactions outputSR.id := by
  simp only [finishCompaction, hlk] at hok
  by_cases horder : compactedSRsInIDOrder (buildNewCompacted outputSR
      (compactionSourceSRs compaction) c.dbState.compacted false) = true
  · rw [if_pos horder, hsrc] at hok
    have hc' := Except.ok.inj hok
    subst hc'
    exact ⟨horder, rfl, rfl, rfl, rfl, rfl, rfl⟩
  · rw [if_neg horder] at hok
    exact absurd hok (by simp)

theorem submit_ok_dbState (c : CompactorState) (compaction : Compaction)
    (c' : CompactorState) (hok : submitCompaction c compaction = Except.ok c') :
    c'.dbState = c.dbState := by
  unfold submitCompaction at hok
  by_cases hdup : (mapLookup c.compactions compaction.destination).isSome = true
  · rw [if_pos hdup] at hok
    exact absurd hok (by simp)
  · rw [if_neg hdup] at hok
    cases hfind : c.dbState.compacted.find?
        (fun sr => decide (sr.id = compaction.destination)) with
    | none =>
      rw [hfind] at hok
      cases Except.ok.inj hok
      rfl
    | some sr0 =>
      rw [hfind] at hok
      by_cases hmatch : oneOfTheSourceSRMatchesDestination compaction = true
      · rw [if_pos hmatch] at hok
        cases Except.ok.inj hok
        rfl
      · rw [if_neg hmatch] at hok
        exact absurd hok (by simp)

theorem finish_ok_invariant (c : CompactorState) (outputSR : SortedRun)
    (c' : CompactorState) (hok : finishCompaction c outputSR = Except.ok c')
    (hinv : compactedInvariant c.dbState.compacted) :
    compactedInvariant c'.dbState.compacted := by
  cases hlk : mapLookup c.compactions outputSR.id with
  | none =>
    rw [finish_not_found c outputSR hlk] at hok
    cases Except.ok.inj hok
    exact hinv
  | some compaction =>
    cases hsrcs : compaction.sources with
    | nil =>
      simp only [finishCompaction, hlk] at hok
      by_cases horder : compactedSRsInIDOrder (buildNewCompacted outputSR
          (compactionSourceSRs compaction) c.dbState.compacted false) = true
      · rw [if_pos horder, hsrcs] at hok
        exact absurd hok (by simp)
      · rw [if_neg horder] at hok
        exact absurd hok (by simp)
    | cons firstSource rest =>
      obtain ⟨horder, -, hcomp, -⟩ :=
        finishCompaction_ok_spec c outputSR compaction firstSource rest c' hlk hsrcs hok
      rw [hcomp]
      exact order_invariant _ horder

/-- Claim C1: starting from any `CompactorState` whose `compacted` list is
strictly decreasing by id with no duplicate ids, after any sequence of
successful `submitCompaction` / `refreshDBState` / `finishCompaction` calls
the `compacted` list of the current `dbState` still is. -/
theorem claim1_compacted_invariant (c c' : CompactorState) (ops : List CompactorOp)
    (hinv : compactedInvariant c.dbState.compacted)
    (hrun : runOps c ops = some c') :
    compactedInvariant c'.dbState.compacted := by
  induction ops generalizing c with
  | nil =>
    cases Option.some.inj hrun
    exact hinv
  | cons op ops ih =>
    simp only [runOps] at hrun
    cases happ : applyOp c op with
    | none =>
      rw [happ] at hrun
      exact absurd hrun (by simp)
    | some c1 =>
      rw [happ] at hrun
      simp only [Option.some_bind] at hrun
      refine ih c1 ?_ hrun
      cases op with
      | submit compaction =>
        simp only [applyOp] at happ
        cases hsub : submitCompaction c compaction with
        | error e =>
          rw [hsub] at happ
          exact absurd happ (by simp [Except.toOption])
        | ok c2 =>
          rw [hsub] at happ
          have h2 : c2 = c1 := by simpa [Except.toOption] using happ
          subst h2
          rw [submit_ok_dbState c compaction c2 hsub]
          exact hinv
      | refresh writerState =>
        simp only [applyOp] at happ
        cases Option.some.inj happ
        exact hinv
      | finish outputSR =>
        simp only [applyOp] at happ
        cases hfin : finishCompaction c outputSR with
        | error e =>
          rw [hfin] at happ
          exact absurd happ (by simp [Except.toOption])
        | ok c2 =>
          rw [hfin] at happ
          have h2 : c2 = c1 := by simpa [Except.toOption] using happ
          subst h2
          exact finish_ok_invariant c outputSR c2 hfin hinv

theorem claim1_witness :
    compactedInvariant
        (CompactorState.mk ⟨[], none, [SortedRun.mk 5 []], 0, 0⟩ []).dbState.compacted ∧
      runOps (CompactorState.mk ⟨[], none, [SortedRun.mk 5 []], 0, 0⟩ [])
          [CompactorOp.refresh ⟨[SSTableHandle.mk 7], none, [], 4, 9⟩] =
        some (CompactorState.mk ⟨[SSTableHandle.mk 7], none, [SortedRun.mk 5 []], 4, 9⟩ []) ∧
      compactedInvariant
        (CompactorState.mk ⟨[SSTableHandle.mk 7], none,
          [SortedRun.mk 5 []], 4, 9⟩ []).dbState.compacted :=
  ⟨by constructor <;> simp, rfl,
    claim1_compacted_invariant
      (CompactorState.mk ⟨[], none, [SortedRun.mk 5 []], 0, 0⟩ [])
      (CompactorState.mk ⟨[SSTableHandle.mk 7], none, [SortedRun.mk 5 []], 4, 9⟩ [])
      [CompactorOp.refresh ⟨[SSTableHandle.mk 7], none, [], 4, 9⟩]
      (by constructor <;> simp) rfl⟩

/-! ### finishCompaction rebuild characterization (C2) -/

theorem buildNewCompacted_inserted (out : SortedRun) (srs : List UInt32V) :
    ∀ l : List SortedRun, buildNewCompacted out srs l true =
      l.filter (fun sr => decide (¬ sr.id ∈ srs)) := by
  intro l
  induction l with
  | nil => rfl
  | cons sr rest ih =>
    by_cases hm : sr.id ∈ srs
    · simp [buildNewCompacted, hm, ih, List.filter_cons]
    · simp [buildNewCompacted, hm, ih, List.filter_cons]

theorem buildNewCompacted_eq_span (out : SortedRun) (srs : List UInt32V) :
    ∀ l : List SortedRun, buildNewCompacted out srs l false =
      ((l.takeWhile (fun sr => decide (out.id < sr.id))).filter
          (fun sr => decide (¬ sr.id ∈ srs))) ++
        out :: ((l.dropWhile (fun sr => decide (out.id < sr.id))).filter
          (fun sr => decide (¬ sr.id ∈ srs))) := by
  intro l
  induction l with
  | nil => rfl
  | cons sr rest ih =>
    by_cases hle : sr.id ≤ out.id
    · have hnlt : ¬ out.id < sr.id := not_lt.mpr hle
      by_cases hm : sr.id ∈ srs <;>
        simp [buildNewCompacted, hle, hm, hnlt, List.takeWhile_cons, List.dropWhile_cons,
          List.filter_cons, buildNewCompacted_inserted]
    · have hlt : out.id < sr.id := lt_of_not_le hle
      by_cases hm : sr.id ∈ srs <;>
        simp [buildNewCompacted, hle, hm, hlt, List.takeWhile_cons, List.dropWhile_cons,
          List.filter_cons, ih]

theorem mem_compactionSourceSRs (compaction : Compaction) (x : UInt32V) :
    x ∈ compactionSourceSRs compaction ↔
      x ∈ compaction.sources.filterMap SourceID.sortedRunID ++ [compaction.destination] := by
  have hfun : ∀ src : SourceID,
      (if (src.sstID).isSome then none else src.sortedRunID) = src.sortedRunID := by
    intro src
    by_cases h : (src.sstID).isSome = true
    · have htyp : src.typ = SourceIDType.SSTID := by
        by_contra hne
        rw [SourceID.sstID, if_neg hne] at h
        exact absurd h (by simp)
      rw [if_pos h, SourceID.sortedRunID, if_neg (by rw [htyp]; intro hc; cases hc)]
    · rw [if_neg h]
  rw [compactionSourceSRs, show (fun src : SourceID =>
    if (src.sstID).isSome then none else src.sortedRunID) = SourceID.sortedRunID
    from funext hfun]
  simp only [List.mem_cons, List.mem_append, List.mem_singleton]
  tauto

theorem buildNewCompacted_eq_claim (out : SortedRun) (srs consumed : List UInt32V)
    (hmem : ∀ x, x ∈ srs ↔ x ∈ consumed) (l : List SortedRun) :
    buildNewCompacted out srs l false = claimRebuildCompacted l out consumed := by
  have hfil : ∀ m : List SortedRun,
      m.filter (fun sr => decide (¬ sr.id ∈ srs)) =
        m.filter (fun sr => decide (¬ sr.id ∈ consumed)) := by
    intro m
    refine List.filter_congr ?_
    intro x _
    rw [decide_eq_decide]
    exact not_congr (hmem x.id)
  rw [buildNewCompacted_eq_span, claimRebuildCompacted, hfil, hfil]

theorem mapLookup_cons (kv : UInt32V × Compaction) (m : List (UInt32V × Compaction))
    (k' : UInt32V) :
    mapLookup (kv :: m) k' = if kv.1 = k' then some kv.2 else mapLookup m k' := rfl

theorem mapErase_cons (kv : UInt32V × Compaction) (m : List (UInt32V × Compaction))
    (k : UInt32V) :
    mapErase (kv :: m) k = if kv.1 = k then mapErase m k else kv :: mapErase m k := by
  rw [mapErase, List.filter_cons]
  by_cases h : kv.1 = k
  · simp [h, mapErase]
  · simp [h, mapErase]

theorem mapLookup_erase_self (m : List (UInt32V × Compaction)) (k : UInt32V) :
    mapLookup (mapErase m k) k = none := by
  induction m with
  | nil => rfl
  | cons kv rest ih =>
    rw [mapErase_cons]
    by_cases h : kv.1 = k
    · rw [if_pos h]
      exact ih
    · rw [if_neg h, mapLookup_cons, if_neg h]
      exact ih

theorem mapLookup_erase_ne (m : List (UInt32V × Compaction)) (k k' : UInt32V)
    (h : k' ≠ k) : mapLookup (mapErase m k) k' = mapLookup m k' := by
  induction m with
  | nil => rfl
  | cons kv rest ih =>
    rw [mapErase_cons]
    by_cases hk : kv.1 = k
    · rw [if_pos hk, ih, mapLookup_cons,
        if_neg (by rw [hk]; exact fun hc => h hc.symm)]
    · rw [if_neg hk, mapLookup_cons, mapLookup_cons, ih]

/-- Claim C2: a successful `finishCompaction` on a compaction registered
under `outputSR.id` commits a state whose `l0` keeps, in order, exactly the
files whose ids are not file-type sources; whose `compacted` is the previous
list with the consumed runs (sorted-run-type sources and the destination)
removed and the output run inserted at the first position whose existing id
is ≤ the output id (appended when none exists); and whose `compactions` no
longer holds the entry, all other keys unchanged. -/
theorem claim2_finishCompaction (c : CompactorState) (outputSR : SortedRun)
    (compaction : Compaction) (c' : CompactorState)
    (hlk : mapLookup c.compactions outputSR.id = some compaction)
    (hok : finishCompaction c outputSR = Except.ok c') :
    c'.dbState.l0 = c.dbState.l0.filter
        (fun sst => decide (¬ sst.id ∈ compaction.sources.filterMap SourceID.sstID)) ∧
      c'.dbState.compacted = claimRebuildCompacted c.dbState.compacted outputSR
        (compaction.sources.filterMap SourceID.sortedRunID ++ [compaction.destination]) ∧
      mapLookup c'.compactions outputSR.id = none ∧
      ∀ k, k ≠ outputSR.id →
        mapLookup c'.compactions k = mapLookup c.compactions k := by
  cases hsrcs : compaction.sources with
  | nil =>
    simp only [finishCompaction, hlk] at hok
    by_cases horder : compactedSRsInIDOrder (buildNewCompacted outputSR
        (compactionSourceSRs compaction) c.dbState.compacted false) = true
    · rw [if_pos horder, hsrcs] at hok
      exact absurd hok (by simp)
    · rw [if_neg horder] at hok
      exact absurd hok (by simp)
  | cons firstSource rest =>
    obtain ⟨-, hl0, hcomp, -, -, -, hmap⟩ :=
      finishCompaction_ok_spec c outputSR compaction firstSource rest c' hlk hsrcs hok
    rw [← hsrcs]
    refine ⟨?_, ?_, ?_, ?_⟩
    · rw [hl0]
      rfl
    · rw [hcomp,
        buildNewCompacted_eq_claim outputSR (compactionSourceSRs compaction)
          (compaction.sources.filterMap SourceID.sortedRunID ++ [compaction.destination])
          (mem_compactionSourceSRs compaction) c.dbState.compacted]
    · rw [hmap]
      exact mapLookup_erase_self _ _
    · intro k hk
      rw [hmap]
      exact mapLookup_erase_ne _ _ _ hk

theorem claim2_witness :
    mapLookup (CompactorState.mk
          ⟨[SSTableHandle.mk 0, SSTableHandle.mk 1], none, [SortedRun.mk 5 []], 0, 0⟩
          [(3, Compaction.mk CompactionStatus.Submitted [newSourceIDSST 0] 3)]).compactions
        (SortedRun.mk 3 []).id =
      some (Compaction.mk CompactionStatus.Submitted [newSourceIDSST 0] 3) ∧
    finishCompaction (CompactorState.mk
          ⟨[SSTableHandle.mk 0, SSTableHandle.mk 1], none, [SortedRun.mk 5 []], 0, 0⟩
          [(3, Compaction.mk CompactionStatus.Submitted [newSourceIDSST 0] 3)])
        (SortedRun.mk 3 []) =
      Except.ok (CompactorState.mk
        ⟨[SSTableHandle.mk 1], some 0, [SortedRun.mk 5 [], SortedRun.mk 3 []], 0, 0⟩ []) ∧
    (CompactorState.mk
        ⟨[SSTableHandle.mk 1], some 0, [SortedRun.mk 5 [], SortedRun.mk 3 []], 0, 0⟩
        [] : CompactorState).dbState.compacted =
      claimRebuildCompacted [SortedRun.mk 5 []] (SortedRun.mk 3 [])
        ((Compaction.mk CompactionStatus.Submitted [newSourceIDSST 0] 3).sources.filterMap
            SourceID.sortedRunID ++
          [(Compaction.mk CompactionStatus.Submitted [newSourceIDSST 0] 3).destination]) :=
  ⟨rfl, rfl,
    (claim2_finishCompaction
      (CompactorState.mk
        ⟨[SSTableHandle.mk 0, SSTableHandle.mk 1], none, [SortedRun.mk 5 []], 0, 0⟩
        [(3, Compaction.mk CompactionStatus.Submitted [newSourceIDSST 0] 3)])
      (SortedRun.mk 3 [])
      (Compaction.mk CompactionStatus.Submitted [newSourceIDSST 0] 3)
      (CompactorState.mk
        ⟨[SSTableHandle.mk 1], some 0, [SortedRun.mk 5 [], SortedRun.mk 3 []], 0, 0⟩ [])
      rfl rfl).2.1⟩

/-! ### finishCompaction watermark (C6) -/

/-- Claim C6: for a registered compaction with a non-empty sources list, a
successful `finishCompaction` sets `l0LastCompacted` to the id carried by
the first source when it is a file-type (SST) source, and leaves the
watermark unchanged when the first source is a sorted-run-type source. -/
theorem claim6_watermark (c : CompactorState) (outputSR : SortedRun)
    (compaction : Compaction) (firstSource : SourceID) (rest : List SourceID)
    (c' : CompactorState)
    (hlk : mapLookup c.compactions outputSR.id = some compaction)
    (hsrc : compaction.sources = firstSource :: rest)
    (hok : finishCompaction c outputSR = Except.ok c') :
    (∀ u : ULIDV, firstSource = newSourceIDSST u →
        c'.dbState.l0LastCompacted = some u) ∧
      (firstSource.typ = SourceIDType.SortedRunID →
        c'.dbState.l0LastCompacted = c.dbState.l0LastCompacted) := by
  obtain ⟨-, -, -, hwm, -⟩ :=
    finishCompaction_ok_spec c outputSR compaction firstSource rest c' hlk hsrc hok
  constructor
  · rintro u rfl
    rw [hwm, sstID_newSourceIDSST]
  · intro htyp
    have hnone : firstSource.sstID = none := by
      rw [SourceID.sstID, if_neg (by rw [htyp]; intro hc; cases hc)]
    rw [hwm, hnone]

theorem claim6_witness :
    mapLookup (CompactorState.mk
          ⟨[SSTableHandle.mk 2], none, [], 0, 0⟩
          [(4, Compaction.mk CompactionStatus.Submitted [newSourceIDSST 2] 4)]).compactions
        (SortedRun.mk 4 []).id =
      some (Compaction.mk CompactionStatus.Submitted [newSourceIDSST 2] 4) ∧
    (Compaction.mk CompactionStatus.Submitted [newSourceIDSST 2] 4).sources =
      newSourceIDSST 2 :: [] ∧
    finishCompaction (CompactorState.mk
          ⟨[SSTableHandle.mk 2], none, [], 0, 0⟩
          [(4, Compaction.mk CompactionStatus.Submitted [newSourceIDSST 2] 4)])
        (SortedRun.mk 4 []) =
      Except.ok (CompactorState.mk ⟨[], some 2, [SortedRun.mk 4 []], 0, 0⟩ []) ∧
    (CompactorState.mk ⟨[], some 2, [SortedRun.mk 4 []], 0, 0⟩
        [] : CompactorState).dbState.l0LastCompacted = some 2 :=
  ⟨rfl, rfl, rfl,
    (claim6_watermark
      (CompactorState.mk
        ⟨[SSTableHandle.mk 2], none, [], 0, 0⟩
        [(4, Compaction.mk CompactionStatus.Submitted [newSourceIDSST 2] 4)])
      (SortedRun.mk 4 [])
      (Compaction.mk CompactionStatus.Submitted [newSourceIDSST 2] 4)
      (newSourceIDSST 2) []
      (CompactorState.mk ⟨[], some 2, [SortedRun.mk 4 []], 0, 0⟩ [])
      rfl rfl rfl).1 2 rfl⟩

/-! ### Sorted-run iterator lemmas (C7, C8) -/

theorem srNext_fst_none_iff :
    ∀ fs : List (List (κ × ν)), (srNext fs).1 = none ↔ fs.flatten = [] := by
  intro fs
  induction fs with
  | nil => simp [srNext]
  | cons f rest ih =>
    cases f with
    | nil => simpa [srNext] using ih
    | cons kv es => simp [srNext]

theorem srNext_of_flatten_nil :
    ∀ fs : List (List (κ × ν)), fs.flatten = [] → srNext fs = (none, []) := by
  intro fs
  induction fs with
  | nil => intro _; rfl
  | cons f rest ih =>
    cases f with
    | nil =>
      intro h
      simp only [List.flatten_cons, List.nil_append] at h
      simpa [srNext] using ih h
    | cons kv es =>
      intro h
      simp at h

theorem srNext_some (fs : List (List (κ × ν))) :
    ∀ kv fs', srNext fs = (some kv, fs') →
      fs.flatten = kv :: fs'.flatten ∧ srMeasure fs' < srMeasure fs := by
  induction fs with
  | nil =>
    intro kv fs' h
    simp [srNext] at h
  | cons f rest ih =>
    cases f with
    | nil =>
      intro kv fs' h
      simp only [srNext] at h
      obtain ⟨h1, h2⟩ := ih kv fs' h
      refine ⟨by simpa using h1, ?_⟩
      simp only [srMeasure, List.flatten_cons, List.nil_append, List.length_cons] at h2 ⊢
      omega
    | cons kv0 es =>
      intro kv fs' h
      simp only [srNext, Prod.mk.injEq, Option.some.injEq] at h
      obtain ⟨rfl, rfl⟩ := h
      refine ⟨by simp, ?_⟩
      simp only [srMeasure, List.flatten_cons, List.length_cons, List.length_append]
      omega

theorem srCollect_eq_flatten :
    ∀ fuel (fs : List (List (κ × ν))), srMeasure fs ≤ fuel →
      srCollect fuel fs = fs.flatten := by
  intro fuel
  induction fuel with
  | zero =>
    intro fs h
    have hnil : fs = [] := by
      simp only [srMeasure] at h
      exact List.length_eq_zero.mp (by omega)
    subst hnil
    rfl
  | succ fuel ih =>
    intro fs h
    simp only [srCollect]
    cases hnext : srNext fs with
    | mk o fs' =>
      cases o with
      | none =>
        have hflat : fs.flatten = [] :=
          (srNext_fst_none_iff fs).mp (by rw [hnext])
        simp [hflat]
      | some kv =>
        obtain ⟨hflat, hm⟩ := srNext_some fs kv fs' hnext
        rw [hflat]
        simp only []
        congr 1
        exact ih fs' (by omega)

/-- Claim C7 (spec-modelled iterator): for a run whose files are
individually sorted strictly ascending and have pairwise disjoint,
ascending key ranges, a full scan yields exactly the concatenation of the
per-file key/value sequences in file order, and the resulting key sequence
is strictly increasing with no duplicate keys. -/
theorem claim7_fullScan_concat {κ ν : Type} [LinearOrder κ]
    (tableContents : SSTableHandle → List (κ × ν)) (run : SortedRun)
    (hSorted : ∀ f ∈ run.files,
      ((tableContents f).map Prod.fst).Pairwise (fun a b => a < b))
    (hDisjoint : run.files.Pairwise (fun f g =>
      ∀ a ∈ (tableContents f).map Prod.fst,
        ∀ b ∈ (tableContents g).map Prod.fst, a < b)) :
    srFullScan tableContents run = (run.files.map tableContents).flatten ∧
      ((srFullScan tableContents run).map Prod.fst).Pairwise (fun a b => a < b) ∧
      ((srFullScan tableContents run).map Prod.fst).Nodup := by
  have hscan : srFullScan tableContents run = (run.files.map tableContents).flatten :=
    srCollect_eq_flatten _ _ le_rfl
  have hpw : (((run.files.map tableContents).flatten).map Prod.fst).Pairwise
      (fun a b => a < b) := by
    rw [List.map_flatten, List.pairwise_flatten]
    constructor
    · intro l' hl'
      simp only [List.mem_map] at hl'
      obtain ⟨l2, hl2, rfl⟩ := hl'
      obtain ⟨f, hf, rfl⟩ := hl2
      exact hSorted f hf
    · rw [List.map_map, List.pairwise_map]
      exact hDisjoint
  refine ⟨hscan, ?_, ?_⟩
  · rw [hscan]
    exact hpw
  · rw [hscan]
    exact (hpw.imp fun h2 => ne_of_lt h2)

theorem claim7_witness :
    (∀ f ∈ (SortedRun.mk 0 [SSTableHandle.mk 0, SSTableHandle.mk 1]).files,
        (((fun h1 : SSTableHandle =>
            if h1.id = 0 then [((1 : Nat), (10 : Nat)), (2, 20)] else [(3, 30)]) f).map
          Prod.fst).Pairwise (fun a b => a < b)) ∧
      ((SortedRun.mk 0 [SSTableHandle.mk 0, SSTableHandle.mk 1]).files.Pairwise fun f g =>
        ∀ a ∈ ((fun h1 : SSTableHandle =>
            if h1.id = 0 then [((1 : Nat), (10 : Nat)), (2, 20)] else [(3, 30)]) f).map
              Prod.fst,
          ∀ b ∈ ((fun h1 : SSTableHandle =>
              if h1.id = 0 then [((1 : Nat), (10 : Nat)), (2, 20)] else [(3, 30)]) g).map
                Prod.fst, a < b) ∧
      srFullScan
          (fun h1 : SSTableHandle =>
            if h1.id = 0 then [((1 : Nat), (10 : Nat)), (2, 20)] else [(3, 30)])
          (SortedRun.mk 0 [SSTableHandle.mk 0, SSTableHandle.mk 1]) =
        (((SortedRun.mk 0 [SSTableHandle.mk 0, SSTableHandle.mk 1]).files.map
          (fun h1 : SSTableHandle =>
            if h1.id = 0 then [((1 : Nat), (10 : Nat)), (2, 20)] else [(3, 30)])).flatten) :=
  ⟨by decide, by decide,
    (claim7_fullScan_concat
      (fun h1 : SSTableHandle =>
        if h1.id = 0 then [((1 : Nat), (10 : Nat)), (2, 20)] else [(3, 30)])
      (SortedRun.mk 0 [SSTableHandle.mk 0, SSTableHandle.mk 1])
      (by decide) (by decide)).1⟩

/-- Claim C8 (spec-modelled iterator): an iterator that has yielded all
pairs of its run keeps answering an explicit `none` — with no error, the
model's `next` having no error channel — on every subsequent call, for any
number of further calls. -/
theorem claim8_terminal_stable {κ ν : Type} (fs : List (List (κ × ν)))
    (h : fs.flatten = []) : ∀ n, (srNext (srIterateN n fs)).1 = none := by
  have key : ∀ n (gs : List (List (κ × ν))), gs.flatten = [] →
      (srIterateN n gs).flatten = [] := by
    intro n
    induction n with
    | zero => intro gs hg; exact hg
    | succ n ih =>
      intro gs hg
      simp only [srIterateN]
      apply ih
      rw [srNext_of_flatten_nil gs hg]
      rfl
  intro n
  rw [srNext_of_flatten_nil _ (key n fs h)]

theorem claim8_witness :
    ([([] : List (Nat × Nat)), []].flatten = []) ∧
      (srNext (srIterateN 3 [([] : List (Nat × Nat)), []])).1 = none :=
  ⟨rfl, claim8_terminal_stable [([] : List (Nat × Nat)), []] rfl 3⟩

end SlateDB
